import Mathlib

/-!
Verification development for the greenboard-mvp entity-resolution core and
its React frontend.  Strings are modelled as lists of character codes
(UTF-16 style code units), matching the JavaScript view of strings used by
the frontend and adequate for the Python backend model.  The backend core
(`search_engine.py`, `api_server.py`) is not part of the visible sources,
so its operations are modelled from the specification; the frontend
(`frontend/src/App.js`) is embedded from the source.
-/

namespace Greenboard

/-- Strings as lists of character codes (UTF-16 style code units). -/
abbrev Str := List Nat

/-- Character codes of a Lean string literal. -/
def strCodes (s : String) : Str := s.toList.map Char.toNat

/-- Lowercase folding of a single character code (ASCII letters only). -/
def lowerCh (c : Nat) : Nat := if 65 ≤ c ∧ c ≤ 90 then c + 32 else c

/-- Separator characters for name tokenization: space, tab, period, comma,
hyphen. -/
def isSep (c : Nat) : Bool := c == 32 || c == 9 || c == 46 || c == 44 || c == 45

/-- Accumulator loop of the tokenizer: `cur` holds the reversed current
token. -/
def tokenizeAux : Str → Str → List Str
  | cur, [] => if cur.isEmpty then [] else [cur.reverse]
  | cur, c :: cs =>
    if isSep c then
      if cur.isEmpty then tokenizeAux [] cs else cur.reverse :: tokenizeAux [] cs
    else tokenizeAux (lowerCh c :: cur) cs

/-- Modelled from the spec: the tokenization step of the Name Normalizer
(`search_engine.py`, absent from the visible sources) — fold case, collapse
internal whitespace/punctuation, and split the raw name into tokens. -/
def tokenize (s : Str) : List Str := tokenizeAux [] s

/-- Title tokens stripped by the Name Normalizer. -/
def titleToks : List Str :=
  [strCodes "mr", strCodes "mrs", strCodes "ms", strCodes "miss",
   strCodes "dr", strCodes "prof", strCodes "rev"]

/-- Suffix tokens stripped by the Name Normalizer. -/
def suffixToks : List Str :=
  [strCodes "jr", strCodes "sr", strCodes "ii", strCodes "iii",
   strCodes "iv", strCodes "esq"]

/-- Tokens kept after stripping titles and suffixes. -/
def keepTok (t : Str) : Bool := decide (t ∉ titleToks ∧ t ∉ suffixToks)

/-- Modelled from the spec: the clean token list of a raw name — lowercase
tokens with titles and suffixes stripped. -/
def cleanTokens (raw : Str) : List Str := (tokenize raw).filter keepTok

/-- Canonical (first, last) pair with an initial flag, derived by the Name
Normalizer; never persisted. -/
structure NormalizedName where
  first : Str
  last : Str
  isInit : Bool
deriving DecidableEq, Repr

/-- Last element of a nonempty token list given head and tail. -/
def lastOf (t : Str) : List Str → Str
  | [] => t
  | r :: rs => lastOf r rs

/-- Modelled from the spec: `normalize(raw_name) -> NormalizedName` of the
Name Normalizer (`search_engine.py`, absent from the visible sources).
Folds case, strips titles and suffixes, collapses whitespace/punctuation,
takes the first remaining token as first name and the last remaining token
as last name, and flags a single-letter first token as an initial.  Never
fails: malformed or single-token input yields best-effort fields. -/
def normalize (raw : Str) : NormalizedName :=
  match cleanTokens raw with
  | [] => ⟨[], [], false⟩
  | [t] => ⟨[], t, false⟩
  | f :: t :: rest => ⟨f, lastOf t rest, decide (f.length = 1)⟩

/-- Displayable form of a normalized name: first and last joined by one
space, or just the last name when the first is empty. -/
def display (n : NormalizedName) : Str :=
  if n.first = [] then n.last else n.first ++ 32 :: n.last

/-- Modelled from the spec: the stable location placeholder used by the
Person Key Generator — a missing city/state becomes the distinct marker
string rather than collapsing with real locations; present values are
case-folded. -/
def locPart (s : Str) : Str := if s = [] then strCodes "unknown" else s.map lowerCh

/-- Modelled from the spec: `person_key(normalized, city, state) ->
PersonKey` of the Person Key Generator (`search_engine.py`, absent from the
visible sources) — a deterministic, case-insensitive, content-addressed key
concatenating the normalized name fields and the location placeholders. -/
def person_key (n : NormalizedName) (city state : Str) : Str :=
  n.first ++ 95 :: n.last ++ 95 :: locPart city ++ 95 :: locPart state

/-- Failure of the Record Store interface (storage failure or timeout). -/
inductive StoreErr
  | storageUnavailable
deriving DecidableEq, Repr

/-- Immutable contribution fact held by the Record Store; created during
ETL and never mutated. -/
structure ContributionRecord where
  name : Str
  firstRaw : Str
  lastRaw : Str
  city : Str
  state : Str
  zip : Str
  amount : Int
  date : Nat
  cmteId : Str
  tranId : Str
deriving DecidableEq, Repr

/-- Match tiers of the cascading resolver. -/
inductive Tier
  | personKeyT
  | normalizedT
  | rawT
  | initialsT
  | fuzzyT
deriving DecidableEq, Repr

/-- Position of a tier in the cascade. -/
def tierIdx : Tier → Nat
  | .personKeyT => 0
  | .normalizedT => 1
  | .rawT => 2
  | .initialsT => 3
  | .fuzzyT => 4

/-- Cascade order of the five tiers. -/
def tierOrder : List Tier :=
  [.personKeyT, .normalizedT, .rawT, .initialsT, .fuzzyT]

/-- Modelled from the spec: the Record Store session (an external
collaborator, absent from the visible sources) exposing the five declared
access patterns, each of which may fail with `StoreErr`. -/
structure Session where
  lookupByPersonKey : Str → Except StoreErr (List ContributionRecord)
  lookupByNormalizedName : Str → Str → Option Str → Except StoreErr (List ContributionRecord)
  lookupByRawName : Str → Option Str → Except StoreErr (List ContributionRecord)
  lookupByInitial : Nat → Str → Option Str → Except StoreErr (List ContributionRecord)
  sampleRecords : Nat → Except StoreErr (List ContributionRecord)

/-- Configuration of the fuzzy tier: bounded sample size and similarity
threshold, explicit rather than hidden constants. -/
structure FuzzyConfig where
  sampleSize : Nat
  threshold : Nat
deriving DecidableEq, Repr

/-- Simple string-similarity score (percentage of positionally equal
characters over the longer length). -/
def similarity (a b : Str) : Nat :=
  ((a.zip b).countP (fun p => p.1 == p.2)) * 100 / max 1 (max a.length b.length)

/-- ContributionRecord annotated with the originating search term, the tier
that matched it and its person key; constructed fresh per search. -/
structure MatchResult where
  record : ContributionRecord
  searchTerm : Str
  tier : Tier
  personKey : Str
deriving DecidableEq, Repr

/-- Annotate a store record as a match for a term at a tier. -/
def mkMatch (term : Str) (t : Tier) (r : ContributionRecord) : MatchResult :=
  ⟨r, term, t, person_key (normalize r.name) r.city r.state⟩

/-- Transaction identifiers of a match list. -/
def tranIdsOf (ms : List MatchResult) : List Str := ms.map (fun m => m.record.tranId)

/-- Keep the first occurrence of every transaction identifier. -/
def selfDedup : List MatchResult → List MatchResult
  | [] => []
  | m :: ms => m :: (selfDedup ms).filter (fun m2 => decide (m2.record.tranId ≠ m.record.tranId))

/-- Ranking relation inside one tier: descending contribution amount, ties
broken by descending transaction date. -/
def amtDateOrd (a b : MatchResult) : Prop :=
  b.record.amount < a.record.amount ∨
    (a.record.amount = b.record.amount ∧ b.record.date ≤ a.record.date)

instance : DecidableRel amtDateOrd := fun a b => by unfold amtDateOrd; infer_instance

instance : IsTotal MatchResult amtDateOrd := by
  constructor
  intro a b
  unfold amtDateOrd
  omega

instance : IsTrans MatchResult amtDateOrd := by
  constructor
  intro a b c hab hbc
  unfold amtDateOrd at hab hbc ⊢
  omega

/-- Whether a tier is applicable to the normalized form of the search term:
the PersonKey tier needs a plausible full name, the initials tier needs the
initial flag, the rest always apply. -/
def tierApplicable (n : NormalizedName) : Tier → Bool
  | .personKeyT => !n.first.isEmpty && !n.last.isEmpty
  | .initialsT => n.isInit
  | _ => true

/-- City filter as a plain string, empty when absent. -/
def cityOrEmpty : Option Str → Str
  | none => []
  | some c => c

/-- Modelled from the spec: the single Record Store query a tier issues for
one search term (Tiered Match Resolver, absent from the visible sources).
The fuzzy tier queries the bounded sample and filters it by the similarity
threshold. -/
def tierFetch (s : Session) (cfg : FuzzyConfig) (term : Str) (city : Option Str) :
    Tier → Except StoreErr (List ContributionRecord)
  | .personKeyT => s.lookupByPersonKey (person_key (normalize term) (cityOrEmpty city) [])
  | .normalizedT => s.lookupByNormalizedName (normalize term).first (normalize term).last city
  | .rawT => s.lookupByRawName term city
  | .initialsT => s.lookupByInitial ((normalize term).first.headD 0) (normalize term).last city
  | .fuzzyT =>
    match s.sampleRecords cfg.sampleSize with
    | .error e => .error e
    | .ok recs => .ok (recs.filter (fun r =>
        decide (cfg.threshold ≤ similarity (display (normalize term)) (display (normalize r.name)))))

/-- Records of one tier not already contributed by an earlier tier,
deduplicated against the accumulated transaction identifiers. -/
def freshOf (term : Str) (t : Tier) (acc : List MatchResult)
    (recs : List ContributionRecord) : List MatchResult :=
  (recs.map (mkMatch term t)).filter (fun m => decide (m.record.tranId ∉ tranIdsOf acc))

/-- Add one tier's records to the accumulated matches: drop records whose
transaction identifier was already contributed, dedupe inside the tier,
rank by descending amount then descending date, and truncate to the
remaining budget. -/
def tierAdd (term : Str) (t : Tier) (limit : Nat) (acc : List MatchResult)
    (recs : List ContributionRecord) : List MatchResult :=
  acc ++ (List.insertionSort amtDateOrd (selfDedup (freshOf term t acc recs))).take
    (limit - acc.length)

/-- Modelled from the spec: the cascade loop of the Tiered Match Resolver
(absent from the visible sources).  Tiers are attempted strictly in the
given order; an applicable tier issues exactly one store query (recorded in
the returned log); the loop stops as soon as the accumulated distinct-record
matches reach the limit; a store failure aborts this term's resolution. -/
def resolveAux (s : Session) (cfg : FuzzyConfig) (term : Str) (city : Option Str) (limit : Nat) :
    List MatchResult → List Tier → Except StoreErr (List MatchResult × List Tier)
  | acc, [] => .ok (acc, [])
  | acc, t :: ts =>
    if limit ≤ acc.length then .ok (acc, [])
    else if tierApplicable (normalize term) t then
      match tierFetch s cfg term city t with
      | .error e => .error e
      | .ok recs =>
        match resolveAux s cfg term city limit (tierAdd term t limit acc recs) ts with
        | .error e => .error e
        | .ok (res, log) => .ok (res, t :: log)
    else resolveAux s cfg term city limit acc ts

/-- Modelled from the spec: `resolve(search_term, city, limit)` paired with
the log of tiers that issued a store query, in order. -/
def resolveWithLog (s : Session) (cfg : FuzzyConfig) (term : Str) (city : Option Str)
    (limit : Nat) : Except StoreErr (List MatchResult × List Tier) :=
  resolveAux s cfg term city limit [] tierOrder

/-- Modelled from the spec: `resolve(search_term, city, limit) -> ordered
list of MatchResult, up to limit` of the Tiered Match Resolver. -/
def resolve (s : Session) (cfg : FuzzyConfig) (term : Str) (city : Option Str)
    (limit : Nat) : Except StoreErr (List MatchResult) :=
  (resolveWithLog s cfg term city limit).map Prod.fst

/-- Fatal failures of a bulk request: invalid input, or storage failure
while acquiring the shared session. -/
inductive BulkErr
  | invalidInput
  | storageFail
deriving DecidableEq, Repr

/-- Per input name summary: count of matches, sum of matched amounts, and
the error if that name's resolution failed. -/
structure SearchSummary where
  search_term : Str
  matches_found : Nat
  total_amount : Int
  error : Option StoreErr
deriving DecidableEq, Repr

/-- Sum of the matched contribution amounts. -/
def totalAmount (ms : List MatchResult) : Int := (ms.map (fun m => m.record.amount)).sum

/-- Modelled from the spec: resolution of one name inside the bulk loop — a
successful resolve yields its matches and an error-free summary; a storage
failure for this name yields an empty match list and a summary recording
the error, without aborting the batch. -/
def perName (s : Session) (cfg : FuzzyConfig) (city : Option Str) (limit : Nat)
    (nm : Str) : List MatchResult × SearchSummary :=
  match resolve s cfg nm city limit with
  | .ok res => (res, ⟨nm, res.length, totalAmount res, none⟩)
  | .error e => ([], ⟨nm, 0, 0, some e⟩)

/-- Whitespace test used for trimming (space, tab, newline, carriage
return). -/
def isWs (c : Nat) : Bool := c == 32 || c == 9 || c == 10 || c == 13

/-- Trim of leading and trailing whitespace. -/
def trimWs (s : Str) : Str := ((s.dropWhile isWs).reverse.dropWhile isWs).reverse

/-- Blank test: a name is blank when nothing is left after trimming. -/
def isBlank (nm : Str) : Bool := (trimWs nm).isEmpty

/-- Input validation of a bulk request: non-empty name list, no blank name,
positive per-name limit. -/
def validInput (names : List Str) (limit : Nat) : Bool :=
  !names.isEmpty && !names.any isBlank && decide (0 < limit)

/-- Modelled from the spec: `bulk_search(names, city, limit_per_name) ->
(results, summary)` of the Bulk Search Orchestrator (absent from the
visible sources).  Invalid input aborts immediately; a failure acquiring
the shared session aborts the whole request with no partial summary;
otherwise every name is resolved in input order against the shared session,
results are merged preserving input order across names, and one summary
entry is produced per name. -/
def bulk_search (acquire : Except StoreErr Session) (cfg : FuzzyConfig) (names : List Str)
    (city : Option Str) (limit : Nat) :
    Except BulkErr (List MatchResult × List SearchSummary) :=
  if !validInput names limit then .error .invalidInput
  else
    match acquire with
    | .error _ => .error .storageFail
    | .ok s =>
      .ok (names.flatMap (fun nm => (perName s cfg city limit nm).1),
           names.map (fun nm => (perName s cfg city limit nm).2))

/-- Decimal digits of a natural number as character codes. -/
def natDigits (n : Nat) : Str :=
  if n < 10 then [48 + n] else natDigits (n / 10) ++ [48 + n % 10]
termination_by n
decreasing_by
  · exact Nat.div_lt_self (by omega) (by omega)

/-- Decimal rendering of an integer as character codes. -/
def intStr (i : Int) : Str :=
  if i < 0 then 45 :: natDigits i.natAbs else natDigits i.natAbs

/-- Flat CSV-export-friendly result row with the stable field names the
frontend table, colorer and CSV exporter consume. -/
structure ResultRow where
  search_term : Str
  NAME : Str
  CITY : Str
  STATE : Str
  TRANSACTION_AMT : Int
  TRANSACTION_DT : Nat
  CMTE_ID : Str
  PERSON_GROUP_ID : Str
deriving DecidableEq, Repr

/-- Modelled from the spec: flattening of one MatchResult into the
export-friendly row shape — every field is copied from the match, none is
re-derived. -/
def toRow (m : MatchResult) : ResultRow :=
  ⟨m.searchTerm, m.record.name, m.record.city, m.record.state,
   m.record.amount, m.record.date, m.record.cmteId, m.personKey⟩

/-- Stable field names of the flat row shape, in order. -/
def rowFieldNames : List Str :=
  [strCodes "search_term", strCodes "NAME", strCodes "CITY", strCodes "STATE",
   strCodes "TRANSACTION_AMT", strCodes "TRANSACTION_DT", strCodes "CMTE_ID",
   strCodes "PERSON_GROUP_ID"]

/-- Serialization of one row as (field name, rendered value) pairs. -/
def rowFields (r : ResultRow) : List (Str × Str) :=
  [(strCodes "search_term", r.search_term), (strCodes "NAME", r.NAME),
   (strCodes "CITY", r.CITY), (strCodes "STATE", r.STATE),
   (strCodes "TRANSACTION_AMT", intStr r.TRANSACTION_AMT),
   (strCodes "TRANSACTION_DT", natDigits r.TRANSACTION_DT),
   (strCodes "CMTE_ID", r.CMTE_ID), (strCodes "PERSON_GROUP_ID", r.PERSON_GROUP_ID)]

/-- Join strings with a comma, as the CSV exporter does. -/
def joinComma : List Str → Str
  | [] => []
  | [x] => x
  | x :: y :: xs => x ++ 44 :: joinComma (y :: xs)

/-- Double-quote a CSV field value, as `exportToCsv` in
frontend/src/App.js does. -/
def csvQuote (v : Str) : Str := 34 :: v ++ [34]

/-- Embedding of `exportToCsv` from frontend/src/App.js: no line for an
empty result list, otherwise a header line of the first row's field names
followed by one quoted line per row. -/
def csvExport (rows : List ResultRow) : List Str :=
  match rows with
  | [] => []
  | r0 :: _ =>
    joinComma ((rowFields r0).map Prod.fst)
      :: rows.map (fun r => joinComma ((rowFields r).map (fun p => csvQuote p.2)))

/-- Result object as the frontend colorer reads it: `PERSON_GROUP_ID` may
be absent or empty (falsy in JavaScript), the raw name and location fields
feed the fallback key. -/
structure JsResult where
  PERSON_GROUP_ID : Option Str
  FIRST_NAME_RAW : Str
  LAST_NAME_RAW : Str
  CITY : Str
  STATE : Str
deriving DecidableEq, Repr

/-- Fallback person key of `getPersonGroupColor` in frontend/src/App.js:
the underscore-joined concatenation of the raw first name, raw last name,
city and state. -/
def jsFallbackKey (r : JsResult) : Str :=
  r.FIRST_NAME_RAW ++ 95 :: r.LAST_NAME_RAW ++ 95 :: r.CITY ++ 95 :: r.STATE

/-- Person key string selected by `getPersonGroupColor` in
frontend/src/App.js: `PERSON_GROUP_ID` when truthy, else the fallback
concatenation. -/
def jsPersonKey (r : JsResult) : Str :=
  match r.PERSON_GROUP_ID with
  | some s => if s.isEmpty then jsFallbackKey r else s
  | none => jsFallbackKey r

/-- Wraparound of an integer into the signed 32-bit range, as JavaScript
ToInt32 does. -/
def jsToInt32 (n : Int) : Int := (n + 2147483648) % 4294967296 - 2147483648

/-- One step of the hash loop in `getPersonGroupColor`:
`hash = ((hash << 5) - hash) + char` followed by `hash |= 0`. -/
def hashStep (h : Int) (c : Nat) : Int := jsToInt32 (jsToInt32 (h * 32) - h + (c : Int))

/-- Accumulated hash of a key string, starting from zero. -/
def jsHash (s : Str) : Int := s.foldl hashStep 0

/-- Hue derived from a result's person key: `Math.abs(hash) % 360`. -/
def jsHue (r : JsResult) : Nat := (jsHash (jsPersonKey r)).natAbs % 360

/-- Embedding of `getPersonGroupColor` from frontend/src/App.js: hash the
person key string, reduce to a hue, and render the HSLA color string with
fixed saturation 70%, lightness 60% and alpha 0.3. -/
def getPersonGroupColor (r : JsResult) : Str :=
  strCodes "hsla(" ++ natDigits (jsHue r) ++ strCodes ", 70%, 60%, 0.3)"

/-- Split on commas keeping empty pieces, as JavaScript
`String.prototype.split` with a comma separator does. -/
def splitComma : Str → List Str
  | [] => [[]]
  | c :: cs =>
    if c = 44 then [] :: splitComma cs
    else
      match splitComma cs with
      | [] => [[c]]
      | t :: ts => (c :: t) :: ts

/-- Embedding of the input handling of `handleSearch` from
frontend/src/App.js: `none` when no request is issued (input blank after
trimming), otherwise the `names` array sent in the body of the single
`bulk_search` request — the comma-split input, each element trimmed,
empty elements removed. -/
def handleSearchNames (input : Str) : Option (List Str) :=
  if (trimWs input).isEmpty then none
  else some (((splitComma input).map trimWs).filter (fun s => !s.isEmpty))

/-! Lemmas about the normalizer. -/

/-- Clean token: nonempty, separator-free and lowercase-fixed. -/
def cleanTok (t : Str) : Prop := t ≠ [] ∧ ∀ c ∈ t, isSep c = false ∧ lowerCh c = c

theorem isSep_eq_false {c : Nat} (h1 : c ≠ 32) (h2 : c ≠ 9) (h3 : c ≠ 46) (h4 : c ≠ 44)
    (h5 : c ≠ 45) : isSep c = false := by
  unfold isSep
  simp only [Bool.or_eq_false_iff, beq_eq_false_iff_ne, ne_eq]
  exact ⟨⟨⟨⟨h1, h2⟩, h3⟩, h4⟩, h5⟩

theorem isSep_lowerCh (c : Nat) : isSep (lowerCh c) = isSep c := by
  unfold lowerCh
  split
  · next h =>
    rw [isSep_eq_false (by omega) (by omega) (by omega) (by omega) (by omega)]
    rw [isSep_eq_false (by omega) (by omega) (by omega) (by omega) (by omega)]
  · rfl

theorem lowerCh_idem (c : Nat) : lowerCh (lowerCh c) = lowerCh c := by
  by_cases h : 65 ≤ c ∧ c ≤ 90
  · have h1 : lowerCh c = c + 32 := by unfold lowerCh; rw [if_pos h]
    rw [h1]
    unfold lowerCh
    rw [if_neg (by omega)]
  · have h1 : lowerCh c = c := by unfold lowerCh; rw [if_neg h]
    rw [h1]
    exact h1

/-- Partial-token invariant of the tokenizer accumulator: every stored
character is separator-free and lowercase-fixed. -/
def curOk (cur : Str) : Prop := ∀ c ∈ cur, isSep c = false ∧ lowerCh c = c

theorem cleanTok_rev {cur : Str} (hcur : curOk cur) (hne : ¬cur.isEmpty = true) :
    cleanTok cur.reverse := by
  constructor
  · intro h
    rw [List.reverse_eq_nil_iff] at h
    subst h
    exact hne rfl
  · intro c hc
    exact hcur c (List.mem_reverse.mp hc)

theorem tokenizeAux_clean :
    ∀ (cs cur : Str), curOk cur → ∀ t ∈ tokenizeAux cur cs, cleanTok t := by
  intro cs
  induction cs with
  | nil =>
    intro cur hcur t ht
    rw [tokenizeAux] at ht
    split at ht
    · simp at ht
    · next hne =>
      rw [List.mem_singleton] at ht
      subst ht
      exact cleanTok_rev hcur hne
  | cons c cs ih =>
    intro cur hcur t ht
    rw [tokenizeAux] at ht
    split at ht
    · split at ht
      · exact ih [] (by intro d hd; simp at hd) t ht
      · next hne =>
        rcases List.mem_cons.mp ht with h | h
        · subst h
          exact cleanTok_rev hcur hne
        · exact ih [] (by intro d hd; simp at hd) t h
    · next hsep =>
      refine ih (lowerCh c :: cur) ?_ t ht
      intro d hd
      rcases List.mem_cons.mp hd with h | h
      · subst h
        exact ⟨by rw [isSep_lowerCh]; exact Bool.of_not_eq_true hsep, lowerCh_idem c⟩
      · exact hcur d h

theorem tokenize_clean (s : Str) : ∀ t ∈ tokenize s, cleanTok t :=
  tokenizeAux_clean s [] (by intro d hd; simp at hd)

theorem tokenizeAux_all_clean :
    ∀ (cs cur : Str), (∀ c ∈ cs, isSep c = false ∧ lowerCh c = c) →
      tokenizeAux cur cs
        = if (cur.reverse ++ cs).isEmpty then [] else [cur.reverse ++ cs] := by
  intro cs
  induction cs with
  | nil =>
    intro cur _
    rw [tokenizeAux]
    cases cur with
    | nil => rfl
    | cons a as => simp
  | cons c cs ih =>
    intro cur h
    have hc := h c (by simp)
    rw [tokenizeAux, if_neg (by simp [hc.1])]
    rw [ih (lowerCh c :: cur) (fun d hd => h d (by simp [hd]))]
    rw [hc.2, List.reverse_cons, List.append_assoc]
    rfl

theorem tokenize_single {t : Str} (h : cleanTok t) : tokenize t = [t] := by
  unfold tokenize
  rw [tokenizeAux_all_clean t [] h.2]
  simp only [List.reverse_nil, List.nil_append]
  rw [if_neg (by simp [List.isEmpty_iff, h.1])]

theorem tokenizeAux_append_clean :
    ∀ (xs cur rest : Str), (∀ c ∈ xs, isSep c = false ∧ lowerCh c = c) →
      tokenizeAux cur (xs ++ rest) = tokenizeAux (xs.reverse ++ cur) rest := by
  intro xs
  induction xs with
  | nil => intro cur rest _; simp
  | cons c xs ih =>
    intro cur rest h
    have hc := h c (by simp)
    rw [List.cons_append, tokenizeAux, if_neg (by simp [hc.1])]
    rw [ih (lowerCh c :: cur) rest (fun d hd => h d (by simp [hd]))]
    rw [hc.2, List.reverse_cons, List.append_assoc]
    rfl

theorem tokenize_pair {f l : Str} (hf : cleanTok f) (hl : cleanTok l) :
    tokenize (f ++ 32 :: l) = [f, l] := by
  unfold tokenize
  rw [tokenizeAux_append_clean f [] (32 :: l) hf.2]
  rw [tokenizeAux]
  rw [if_pos (by rfl)]
  rw [if_neg (by simp [List.isEmpty_iff, hf.1])]
  have h1 : (f.reverse ++ ([] : Str)).reverse = f := by simp
  rw [h1]
  have h2 : tokenizeAux [] l = [l] := tokenize_single hl
  rw [h2]

theorem cleanTokens_mem {raw t : Str} (h : t ∈ cleanTokens raw) :
    cleanTok t ∧ keepTok t = true := by
  rcases List.mem_filter.mp h with ⟨hmem, hkeep⟩
  exact ⟨tokenize_clean raw t hmem, hkeep⟩

theorem cleanTokens_single {t : Str} (h : cleanTok t) (hk : keepTok t = true) :
    cleanTokens t = [t] := by
  unfold cleanTokens
  rw [tokenize_single h]
  simp [hk]

theorem cleanTokens_pair {f l : Str} (hf : cleanTok f) (hl : cleanTok l)
    (hkf : keepTok f = true) (hkl : keepTok l = true) :
    cleanTokens (f ++ 32 :: l) = [f, l] := by
  unfold cleanTokens
  rw [tokenize_pair hf hl]
  simp [hkf, hkl]

theorem lastOf_mem : ∀ (t : Str) (rest : List Str), lastOf t rest ∈ t :: rest := by
  intro t rest
  induction rest generalizing t with
  | nil => simp [lastOf]
  | cons r rs ih =>
    rw [lastOf]
    rcases List.mem_cons.mp (ih r) with h | h
    · simp [h]
    · simp [List.mem_cons.mpr (Or.inr h)]

theorem normalize_eq_nil {raw : Str} (h : cleanTokens raw = []) :
    normalize raw = ⟨[], [], false⟩ := by
  unfold normalize
  rw [h]

theorem normalize_eq_single {raw t : Str} (h : cleanTokens raw = [t]) :
    normalize raw = ⟨[], t, false⟩ := by
  unfold normalize
  rw [h]

theorem normalize_eq_pair {raw f t : Str} {rest : List Str}
    (h : cleanTokens raw = f :: t :: rest) :
    normalize raw = ⟨f, lastOf t rest, decide (f.length = 1)⟩ := by
  unfold normalize
  rw [h]

theorem cleanTokens_nil : cleanTokens ([] : Str) = [] := rfl

/-- C6: `normalize` is a pure, deterministic function of the raw name
string, and for every raw name `x`, re-normalizing the displayable form of
the normalized result is a no-op: `normalize (display (normalize x)) =
normalize x`. -/
theorem claim_C6_normalize_idempotent :
    (∀ x y : Str, x = y → normalize x = normalize y) ∧
    (∀ x : Str, normalize (display (normalize x)) = normalize x) := by
  constructor
  · intro x y h
    rw [h]
  · intro x
    cases hts : cleanTokens x with
    | nil =>
      rw [normalize_eq_nil hts]
      have hd : display ⟨[], [], false⟩ = ([] : Str) := by simp [display]
      rw [hd, normalize_eq_nil cleanTokens_nil]
    | cons f ts =>
      cases ts with
      | nil =>
        rw [normalize_eq_single hts]
        obtain ⟨hfc, hfk⟩ := cleanTokens_mem (t := f) (by rw [hts]; simp)
        have hd : display ⟨[], f, false⟩ = f := by simp [display]
        rw [hd, normalize_eq_single (cleanTokens_single hfc hfk)]
      | cons t rest =>
        rw [normalize_eq_pair hts]
        obtain ⟨hfc, hfk⟩ := cleanTokens_mem (t := f) (by rw [hts]; simp)
        obtain ⟨hlc, hlk⟩ := cleanTokens_mem (t := lastOf t rest)
          (by rw [hts]; exact List.mem_cons_of_mem f (lastOf_mem t rest))
        have hd : display ⟨f, lastOf t rest, decide (f.length = 1)⟩
            = f ++ 32 :: lastOf t rest := by
          simp only [display]
          rw [if_neg hfc.1]
        rw [hd, normalize_eq_pair (cleanTokens_pair hfc hlc hfk hlk)]
        rfl

/-- C1: `person_key` is a pure, deterministic function of
(NormalizedName, city, state): identical inputs always yield the identical
key; the key is content-addressed, depending on nothing but the inputs (in
particular no randomness, no process-local state, no write-time
auto-increment). -/
theorem claim_C1_person_key_deterministic
    (n₁ n₂ : NormalizedName) (c₁ c₂ s₁ s₂ : Str)
    (hn : n₁ = n₂) (hc : c₁ = c₂) (hs : s₁ = s₂) :
    person_key n₁ c₁ s₁ = person_key n₂ c₂ s₂ := by
  rw [hn, hc, hs]

/-- Witness for C1 at a concrete input: the key of the normalized
"John Smith" in New York is computed identically by any two calls. -/
theorem claim_C1_witness :
    person_key (normalize (strCodes "John Smith")) (strCodes "New York") (strCodes "NY")
      = person_key (normalize (strCodes "John Smith")) (strCodes "New York") (strCodes "NY") :=
  claim_C1_person_key_deterministic _ _ _ _ _ _ rfl rfl rfl

/-! Lemmas about trimming, and the client-side input handling claims. -/

theorem dropWhile_head_false {α : Type} {p : α → Bool} :
    ∀ {l : List α} {a : α} {as : List α}, l.dropWhile p = a :: as → p a = false := by
  intro l
  induction l with
  | nil => intro a as h; simp at h
  | cons x xs ih =>
    intro a as h
    by_cases hx : p x
    · rw [List.dropWhile_cons_of_pos hx] at h
      exact ih h
    · rw [List.dropWhile_cons_of_neg hx] at h
      injection h with h1 _
      subst h1
      simpa using hx

theorem dropWhile_self {α : Type} {p : α → Bool} {l : List α}
    (h : ∀ a as, l = a :: as → p a = false) : l.dropWhile p = l := by
  cases l with
  | nil => rfl
  | cons a as => exact List.dropWhile_cons_of_neg (by simp [h a as rfl])

theorem trimWs_idem (s : Str) : trimWs (trimWs s) = trimWs s := by
  have hI : (trimWs s).dropWhile isWs = trimWs s := by
    apply dropWhile_self
    intro a as h
    have hsuf : ((s.dropWhile isWs).reverse.dropWhile isWs) <:+ (s.dropWhile isWs).reverse :=
      List.dropWhile_suffix _
    have hpre : ((s.dropWhile isWs).reverse.dropWhile isWs).reverse <+: (s.dropWhile isWs) := by
      have h2 := List.reverse_prefix.mpr hsuf
      simpa using h2
    rw [show trimWs s = ((s.dropWhile isWs).reverse.dropWhile isWs).reverse from rfl] at h
    rw [h] at hpre
    obtain ⟨rest, hrest⟩ := hpre
    exact dropWhile_head_false hrest.symm
  have hrev : (trimWs s).reverse = (s.dropWhile isWs).reverse.dropWhile isWs := by
    rw [show trimWs s = ((s.dropWhile isWs).reverse.dropWhile isWs).reverse from rfl]
    simp
  have hII : (trimWs s).reverse.dropWhile isWs = (trimWs s).reverse := by
    rw [hrev]
    apply dropWhile_self
    intro a as h
    exact dropWhile_head_false h
  show (((trimWs s).dropWhile isWs).reverse.dropWhile isWs).reverse = trimWs s
  rw [hI, hII]
  simp

/-- C10 counterexample: on the raw input consisting of a single comma, the
input is non-blank after trimming, so `handleSearch` does issue a request,
yet the comma-split/trim/filter pipeline leaves an empty names array — the
request body contains an empty names list, contradicting the claim that it
never does. -/
theorem claim_C10_counterexample :
    handleSearchNames (strCodes ",") = some [] := by decide

/-- C10 (amended): `handleSearch` issues at most one request, and only
when the raw input is non-blank after trimming; the names array sent is
the comma-split input with each element trimmed and empty elements
removed, so no individual name in the request body is blank — but the
names list itself can still be empty (e.g. for an input of only commas),
so the server's empty-names InvalidInput condition remains reachable. -/
theorem claim_C10_amended (input : Str) :
    (handleSearchNames input = none ↔ trimWs input = []) ∧
    (∀ names, handleSearchNames input = some names →
      names = ((splitComma input).map trimWs).filter (fun s => !s.isEmpty) ∧
      ∀ nm ∈ names, nm ≠ [] ∧ isBlank nm = false) := by
  constructor
  · unfold handleSearchNames
    by_cases h : (trimWs input).isEmpty
    · simp only [if_pos h]
      simp only [List.isEmpty_iff] at h
      simp [h]
    · simp only [if_neg h]
      simp only [List.isEmpty_iff] at h
      simp [h]
  · intro names h
    unfold handleSearchNames at h
    by_cases hb : (trimWs input).isEmpty
    · rw [if_pos hb] at h
      exact absurd h (by simp)
    · rw [if_neg hb] at h
      injection h with h
      subst h
      refine ⟨rfl, ?_⟩
      intro nm hnm
      rcases List.mem_filter.mp hnm with ⟨hmem, hne⟩
      rcases List.mem_map.mp hmem with ⟨piece, _, rfl⟩
      refine ⟨by simpa using hne, ?_⟩
      unfold isBlank
      rw [trimWs_idem]
      simpa using hne

/-- Witness for C10 (amended) at a concrete two-name input: the first name
sent is neither empty nor blank. -/
theorem claim_C10_witness :
    strCodes "John Smith" ≠ [] ∧ isBlank (strCodes "John Smith") = false :=
  ((claim_C10_amended (strCodes "John Smith, Jane Doe")).2
    [strCodes "John Smith", strCodes "Jane Doe"] (by decide)).2
    (strCodes "John Smith") (by decide)

/-- Witness for C6 at concrete inputs: determinism and idempotence of the
normalizer evaluated on an honorific-laden name. -/
theorem claim_C6_witness :
    normalize (strCodes "Mr Bob Jones") = normalize (strCodes "Mr Bob Jones") ∧
    normalize (display (normalize (strCodes "Dr. John A. Smith Jr."))) =
      normalize (strCodes "Dr. John A. Smith Jr.") :=
  ⟨claim_C6_normalize_idempotent.1 _ _ rfl,
   claim_C6_normalize_idempotent.2 (strCodes "Dr. John A. Smith Jr.")⟩

/-! Lemmas about the person-group colorer. -/

theorem jsToInt32_bounds (n : Int) :
    -2147483648 ≤ jsToInt32 n ∧ jsToInt32 n < 2147483648 := by
  unfold jsToInt32
  have h1 : 0 ≤ (n + 2147483648) % 4294967296 := Int.emod_nonneg _ (by norm_num)
  have h2 : (n + 2147483648) % 4294967296 < 4294967296 := Int.emod_lt_of_pos _ (by norm_num)
  omega

theorem hashStep_bounds (h : Int) (c : Nat) :
    -2147483648 ≤ hashStep h c ∧ hashStep h c < 2147483648 :=
  jsToInt32_bounds _

theorem foldl_hashStep_bounds :
    ∀ (s : Str) (h : Int), -2147483648 ≤ h ∧ h < 2147483648 →
      -2147483648 ≤ s.foldl hashStep h ∧ s.foldl hashStep h < 2147483648 := by
  intro s
  induction s with
  | nil => intro h hh; simpa using hh
  | cons c cs ih =>
    intro h _
    rw [List.foldl_cons]
    exact ih (hashStep h c) (hashStep_bounds h c)

theorem jsHash_bounds (s : Str) :
    -2147483648 ≤ jsHash s ∧ jsHash s < 2147483648 :=
  foldl_hashStep_bounds s 0 (by norm_num)

/-- C9: `getPersonGroupColor` is total and deterministic — equal person-key
strings (PERSON_GROUP_ID, or the fallback concatenation of the raw names
and location) give the identical HSLA color string in any two calls; the
accumulated hash stays in the signed 32-bit range at each character
(`hash |= 0`); the derived hue `Math.abs(hash) % 360` lies in 0..359; and
the returned value is the HSLA string built from that hue. -/
theorem claim_C9_color_total_deterministic (r₁ r₂ : JsResult) :
    (jsPersonKey r₁ = jsPersonKey r₂ → getPersonGroupColor r₁ = getPersonGroupColor r₂) ∧
    (∀ (h : Int) (c : Nat), -2147483648 ≤ hashStep h c ∧ hashStep h c < 2147483648) ∧
    (-2147483648 ≤ jsHash (jsPersonKey r₁) ∧ jsHash (jsPersonKey r₁) < 2147483648) ∧
    jsHue r₁ < 360 ∧
    getPersonGroupColor r₁
      = strCodes "hsla(" ++ natDigits (jsHue r₁) ++ strCodes ", 70%, 60%, 0.3)" := by
  refine ⟨?_, hashStep_bounds, jsHash_bounds _, ?_, rfl⟩
  · intro hk
    unfold getPersonGroupColor jsHue
    rw [hk]
  · exact Nat.mod_lt _ (by norm_num)

/-- Witness for C9 at concrete inputs: two distinct result objects sharing
the same truthy PERSON_GROUP_ID receive the identical color string. -/
theorem claim_C9_witness :
    getPersonGroupColor ⟨some (strCodes "key1"), [], [], [], []⟩
      = getPersonGroupColor ⟨some (strCodes "key1"), strCodes "x", strCodes "y", [], []⟩ :=
  (claim_C9_color_total_deterministic
    ⟨some (strCodes "key1"), [], [], [], []⟩
    ⟨some (strCodes "key1"), strCodes "x", strCodes "y", [], []⟩).1 (by decide)

/-! Lemmas about deduplication in the resolver. -/

theorem selfDedup_subset : ∀ {ms : List MatchResult} {m : MatchResult},
    m ∈ selfDedup ms → m ∈ ms := by
  intro ms
  induction ms with
  | nil => intro m h; simp [selfDedup] at h
  | cons x xs ih =>
    intro m h
    rw [selfDedup] at h
    rcases List.mem_cons.mp h with h | h
    · simp [h]
    · exact List.mem_cons_of_mem x (ih (List.mem_filter.mp h).1)

theorem selfDedup_nodup (ms : List MatchResult) : (tranIdsOf (selfDedup ms)).Nodup := by
  induction ms with
  | nil => simp [selfDedup, tranIdsOf]
  | cons m ms ih =>
    rw [selfDedup]
    unfold tranIdsOf at *
    rw [List.map_cons]
    rw [List.nodup_cons]
    constructor
    · intro hmem
      rcases List.mem_map.mp hmem with ⟨m2, hm2, hid⟩
      have hne := (List.mem_filter.mp hm2).2
      simp only [decide_eq_true_eq] at hne
      exact hne hid
    · exact ih.sublist (List.Sublist.map _ (List.filter_sublist _))

theorem tierAdd_nodup {term : Str} {t : Tier} {limit : Nat} {acc : List MatchResult}
    {recs : List ContributionRecord} (h : (tranIdsOf acc).Nodup) :
    (tranIdsOf (tierAdd term t limit acc recs)).Nodup := by
  unfold tierAdd tranIdsOf
  rw [List.map_append, List.nodup_append]
  refine ⟨h, ?_, ?_⟩
  · have hperm : List.Perm
        (List.insertionSort amtDateOrd (selfDedup (freshOf term t acc recs)))
        (selfDedup (freshOf term t acc recs)) := List.perm_insertionSort _ _
    have hnd0 := selfDedup_nodup (freshOf term t acc recs)
    unfold tranIdsOf at hnd0
    have hnd := ((hperm.map (fun m => m.record.tranId)).nodup_iff).mpr hnd0
    exact hnd.sublist (List.Sublist.map _ (List.take_sublist _ _))
  · intro a ha hb
    rcases List.mem_map.mp hb with ⟨m, hm, rfl⟩
    have hsort : m ∈ List.insertionSort amtDateOrd (selfDedup (freshOf term t acc recs)) :=
      (List.take_sublist _ _).subset hm
    have hsd : m ∈ selfDedup (freshOf term t acc recs) :=
      (List.perm_insertionSort _ _).mem_iff.mp hsort
    have hfr : m ∈ freshOf term t acc recs := selfDedup_subset hsd
    have hpred := (List.mem_filter.mp hfr).2
    simp only [decide_eq_true_eq] at hpred
    exact hpred ha

theorem resolveAux_nodup (s : Session) (cfg : FuzzyConfig) (term : Str) (city : Option Str)
    (limit : Nat) :
    ∀ (ts : List Tier) (acc : List MatchResult), (tranIdsOf acc).Nodup →
      ∀ res log, resolveAux s cfg term city limit acc ts = .ok (res, log) →
        (tranIdsOf res).Nodup := by
  intro ts
  induction ts with
  | nil =>
    intro acc hacc res log h
    rw [resolveAux] at h
    injection h with h
    injection h with h1 h2
    subst h1
    exact hacc
  | cons t ts ih =>
    intro acc hacc res log h
    rw [resolveAux] at h
    split at h
    · injection h with h
      injection h with h1 h2
      subst h1
      exact hacc
    · split at h
      · cases hf : tierFetch s cfg term city t with
        | error e =>
          rw [hf] at h
          simp at h
        | ok recs =>
          rw [hf] at h
          dsimp only at h
          cases hr : resolveAux s cfg term city limit (tierAdd term t limit acc recs) ts with
          | error e =>
            rw [hr] at h
            simp at h
          | ok p =>
            obtain ⟨res0, log0⟩ := p
            rw [hr] at h
            injection h with h
            injection h with h1 h2
            subst h1
            exact ih (tierAdd term t limit acc recs) (tierAdd_nodup hacc) res0 log0 hr
      · exact ih acc hacc res log h

/-- Outcome predicate for C3: a successful resolution carries pairwise
distinct transaction identifiers. -/
def resolveNodup : Except StoreErr (List MatchResult) → Prop
  | .error _ => True
  | .ok res => (tranIdsOf res).Nodup

/-- C3: in every call to `resolve`, no two MatchResults of the returned
list carry the same transaction identifier — a record contributed by an
earlier tier is never re-added by a later tier, and duplicates inside one
tier's store reply are collapsed. -/
theorem claim_C3_dedup_invariant (s : Session) (cfg : FuzzyConfig) (term : Str)
    (city : Option Str) (limit : Nat) :
    resolveNodup (resolve s cfg term city limit) := by
  unfold resolve
  cases heq : resolveWithLog s cfg term city limit with
  | error e => exact trivial
  | ok p =>
    obtain ⟨res, log⟩ := p
    exact resolveAux_nodup s cfg term city limit tierOrder [] (by simp [tranIdsOf]) res log heq

/-! Lemmas about the short-circuit behaviour of the cascade. -/

theorem resolveAux_stop (s : Session) (cfg : FuzzyConfig) (term : Str) (city : Option Str)
    (limit : Nat) (acc : List MatchResult) (ts : List Tier) (h : limit ≤ acc.length) :
    resolveAux s cfg term city limit acc ts = .ok (acc, []) := by
  cases ts with
  | nil => rw [resolveAux]
  | cons t ts => rw [resolveAux, if_pos h]

theorem resolveAux_log_sublist (s : Session) (cfg : FuzzyConfig) (term : Str)
    (city : Option Str) (limit : Nat) :
    ∀ (ts : List Tier) (acc : List MatchResult) (res : List MatchResult) (log : List Tier),
      resolveAux s cfg term city limit acc ts = .ok (res, log) → log.Sublist ts := by
  intro ts
  induction ts with
  | nil =>
    intro acc res log h
    rw [resolveAux] at h
    injection h with h
    injection h with h1 h2
    subst h2
    exact List.nil_sublist _
  | cons t ts ih =>
    intro acc res log h
    rw [resolveAux] at h
    split at h
    · injection h with h
      injection h with h1 h2
      subst h2
      exact List.nil_sublist _
    · split at h
      · cases hf : tierFetch s cfg term city t with
        | error e =>
          rw [hf] at h
          simp at h
        | ok recs =>
          rw [hf] at h
          dsimp only at h
          cases hr : resolveAux s cfg term city limit (tierAdd term t limit acc recs) ts with
          | error e =>
            rw [hr] at h
            simp at h
          | ok p =>
            obtain ⟨res0, log0⟩ := p
            rw [hr] at h
            injection h with h
            injection h with h1 h2
            subst h2
            exact (ih (tierAdd term t limit acc recs) res0 log0 hr).cons₂ t
      · exact (ih acc res log h).cons t

theorem resolveAux_extend (s : Session) (cfg : FuzzyConfig) (term : Str) (city : Option Str)
    (limit : Nat) :
    ∀ (ts₁ : List Tier) (ts₂ : List Tier) (acc a : List MatchResult) (l : List Tier),
      resolveAux s cfg term city limit acc ts₁ = .ok (a, l) → limit ≤ a.length →
      resolveAux s cfg term city limit acc (ts₁ ++ ts₂) = .ok (a, l) := by
  intro ts₁
  induction ts₁ with
  | nil =>
    intro ts₂ acc a l h hlim
    rw [resolveAux] at h
    injection h with h
    injection h with h1 h2
    subst h1
    subst h2
    rw [List.nil_append]
    exact resolveAux_stop s cfg term city limit acc ts₂ hlim
  | cons t ts₁ ih =>
    intro ts₂ acc a l h hlim
    rw [List.cons_append]
    rw [resolveAux] at h ⊢
    split at h
    · next hl =>
      rw [if_pos hl]
      exact h
    · next hl =>
      rw [if_neg hl]
      split at h
      · next happ =>
        rw [if_pos happ]
        cases hf : tierFetch s cfg term city t with
        | error e =>
          rw [hf] at h
          simp at h
        | ok recs =>
          rw [hf] at h
          dsimp only at h ⊢
          cases hr : resolveAux s cfg term city limit (tierAdd term t limit acc recs) ts₁ with
          | error e =>
            rw [hr] at h
            simp at h
          | ok p =>
            obtain ⟨res0, log0⟩ := p
            rw [hr] at h
            injection h with h
            injection h with h1 h2
            subst h1
            subst h2
            rw [ih ts₂ (tierAdd term t limit acc recs) res0 log0 hr hlim]
      · next happ =>
        rw [if_neg happ]
        exact ih ts₂ acc a l h hlim

/-- C2: the five tiers are attempted strictly in cascade order with at most
one store query each (the query log is a sublist of the cascade order);
once the accumulated matches of a prefix of the cascade reach the limit,
the full run equals that prefix run, so no later tier issues any query;
and if the PersonKey tier is applicable and alone yields at least `limit`
distinct records, the full resolution issues exactly the one PersonKey
query. -/
theorem claim_C2_tier_short_circuit (s : Session) (cfg : FuzzyConfig) (term : Str)
    (city : Option Str) (limit : Nat) :
    (∀ res log, resolveWithLog s cfg term city limit = .ok (res, log) →
      log.Sublist tierOrder) ∧
    (∀ k a l, resolveAux s cfg term city limit [] (tierOrder.take k) = .ok (a, l) →
      limit ≤ a.length → resolveWithLog s cfg term city limit = .ok (a, l)) ∧
    (0 < limit → tierApplicable (normalize term) Tier.personKeyT = true →
      ∀ recs, tierFetch s cfg term city Tier.personKeyT = .ok recs →
        limit ≤ (selfDedup (freshOf term Tier.personKeyT [] recs)).length →
        ∃ res, resolveWithLog s cfg term city limit = .ok (res, [Tier.personKeyT])) := by
  refine ⟨?_, ?_, ?_⟩
  · intro res log h
    exact resolveAux_log_sublist s cfg term city limit tierOrder [] res log h
  · intro k a l h hlim
    have h2 := resolveAux_extend s cfg term city limit (tierOrder.take k)
      (tierOrder.drop k) [] a l h hlim
    rw [List.take_append_drop] at h2
    exact h2
  · intro hpos happ recs hf hcnt
    refine ⟨tierAdd term Tier.personKeyT limit [] recs, ?_⟩
    unfold resolveWithLog tierOrder
    rw [resolveAux]
    rw [if_neg (by simp only [List.length_nil]; omega)]
    rw [if_pos happ]
    rw [hf]
    dsimp only
    have hlen : limit ≤ (tierAdd term Tier.personKeyT limit [] recs).length := by
      unfold tierAdd
      rw [List.length_append, List.length_take, List.length_insertionSort]
      simp only [List.length_nil, Nat.zero_add, Nat.sub_zero]
      omega
    rw [resolveAux_stop s cfg term city limit _ _ hlen]

/-- Concrete single-record fixture store used by the witnesses: every
lookup succeeds and the PersonKey lookup returns one record. -/
def fixtureRecord : ContributionRecord :=
  ⟨strCodes "JOHN SMITH", strCodes "JOHN", strCodes "SMITH", strCodes "NEW YORK",
   strCodes "NY", strCodes "10001", 250, 20180315, strCodes "C001", strCodes "T001"⟩

/-- Concrete session whose PersonKey lookup yields the fixture record and
whose other lookups are empty. -/
def fixtureSession : Session :=
  ⟨fun _ => .ok [fixtureRecord], fun _ _ _ => .ok [], fun _ _ => .ok [],
   fun _ _ _ => .ok [], fun _ => .ok []⟩

/-- Witness for C2 at a concrete input: with limit 1 and a PersonKey tier
that alone yields one distinct record, exactly one store query is issued. -/
theorem claim_C2_witness :
    ∃ res, resolveWithLog fixtureSession ⟨50, 80⟩ (strCodes "John Smith") none 1
      = .ok (res, [Tier.personKeyT]) :=
  (claim_C2_tier_short_circuit fixtureSession ⟨50, 80⟩ (strCodes "John Smith") none 1).2.2
    (by decide) (by decide) [fixtureRecord] rfl (by decide)

/-! Lemmas about the bulk orchestrator. -/

theorem perName_search_term (s : Session) (cfg : FuzzyConfig) (city : Option Str)
    (limit : Nat) (nm : Str) : ((perName s cfg city limit nm).2).search_term = nm := by
  unfold perName
  cases resolve s cfg nm city limit with
  | error e => rfl
  | ok res => rfl

theorem validInput_true {names : List Str} {limit : Nat} (hne : names ≠ [])
    (hnb : ∀ nm ∈ names, isBlank nm = false) (hlim : 0 < limit) :
    validInput names limit = true := by
  unfold validInput
  have h1 : names.isEmpty = false := by
    cases names with
    | nil => exact absurd rfl hne
    | cons a as => rfl
  have h2 : names.any isBlank = false := by
    rw [List.any_eq_false]
    intro nm hnm
    simp [hnb nm hnm]
  rw [h1, h2]
  simp [hlim]

theorem bulk_search_ok (s : Session) (cfg : FuzzyConfig) {names : List Str}
    (city : Option Str) {limit : Nat} (hv : validInput names limit = true) :
    bulk_search (.ok s) cfg names city limit
      = .ok (names.flatMap (fun nm => (perName s cfg city limit nm).1),
             names.map (fun nm => (perName s cfg city limit nm).2)) := by
  unfold bulk_search
  rw [hv]
  rfl

/-- C4: for every non-empty, valid input list of names (no blank names,
positive limit) with a successfully acquired session, `bulk_search`
returns one summary entry per requested name, in the order of `names`
(lengths equal, search terms aligned), and duplicate input names are
processed independently: equal input positions yield equal summary
entries, each computed by the same per-name resolution from the same
underlying store. -/
theorem claim_C4_summary_alignment (s : Session) (cfg : FuzzyConfig) (names : List Str)
    (city : Option Str) (limit : Nat) (hne : names ≠ [])
    (hnb : ∀ nm ∈ names, isBlank nm = false) (hlim : 0 < limit) :
    ∃ rs ss, bulk_search (.ok s) cfg names city limit = .ok (rs, ss) ∧
      ss = names.map (fun nm => (perName s cfg city limit nm).2) ∧
      ss.length = names.length ∧
      ss.map (fun entry => entry.search_term) = names ∧
      ∀ i j : Nat, names[i]? = names[j]? → ss[i]? = ss[j]? := by
  refine ⟨_, _, bulk_search_ok s cfg city (validInput_true hne hnb hlim), rfl, ?_, ?_, ?_⟩
  · exact List.length_map _ _
  · rw [List.map_map]
    have h1 : (fun nm => ((perName s cfg city limit nm).2).search_term) = fun nm => nm := by
      funext nm
      exact perName_search_term s cfg city limit nm
    calc names.map ((fun entry => entry.search_term) ∘ fun nm => (perName s cfg city limit nm).2)
        = names.map fun nm => nm := by rw [show ((fun entry => entry.search_term) ∘ fun nm => (perName s cfg city limit nm).2) = fun nm => nm from h1]
      _ = names := List.map_id _
  · intro i j hij
    rw [List.getElem?_map, List.getElem?_map, hij]

/-- Session fixture whose normalized-name lookup always fails with
StorageUnavailable and whose other lookups are empty. -/
def failingSession : Session :=
  ⟨fun _ => .ok [], fun _ _ _ => .error .storageUnavailable, fun _ _ => .ok [],
   fun _ _ _ => .ok [], fun _ => .ok []⟩

/-- Witness for C4 at a concrete two-name input against the fixture
store. -/
theorem claim_C4_witness :
    ∃ rs ss,
      bulk_search (.ok fixtureSession) ⟨50, 80⟩ [strCodes "ann", strCodes "bob"] none 1
        = .ok (rs, ss) ∧
      ss = [strCodes "ann", strCodes "bob"].map
        (fun nm => (perName fixtureSession ⟨50, 80⟩ none 1 nm).2) ∧
      ss.length = [strCodes "ann", strCodes "bob"].length ∧
      ss.map (fun entry => entry.search_term) = [strCodes "ann", strCodes "bob"] ∧
      ∀ i j : Nat, [strCodes "ann", strCodes "bob"][i]? = [strCodes "ann", strCodes "bob"][j]? →
        ss[i]? = ss[j]? :=
  claim_C4_summary_alignment fixtureSession ⟨50, 80⟩ [strCodes "ann", strCodes "bob"] none 1
    (by decide) (by decide) (by decide)

/-- C5: partial failure isolation — with a successfully acquired session,
a per-name StorageUnavailable is captured in that name's summary entry
(error set, zero matches, zero total) while every other name whose
resolution succeeds still gets its normal, valid summary entry; whereas a
failure acquiring the shared session itself aborts the whole bulk request
with a storage error and no partial summary. -/
theorem claim_C5_partial_failure_isolation (s : Session) (cfg : FuzzyConfig)
    (names : List Str) (city : Option Str) (limit : Nat) (hne : names ≠ [])
    (hnb : ∀ nm ∈ names, isBlank nm = false) (hlim : 0 < limit) :
    (∀ (k : Nat) (nm : Str) (e : StoreErr), names[k]? = some nm →
      resolve s cfg nm city limit = .error e →
      ∃ rs ss, bulk_search (.ok s) cfg names city limit = .ok (rs, ss) ∧
        ss[k]? = some ⟨nm, 0, 0, some e⟩ ∧
        ∀ (j : Nat) (nm2 : Str) (res : List MatchResult), names[j]? = some nm2 →
          resolve s cfg nm2 city limit = .ok res →
          ss[j]? = some ⟨nm2, res.length, totalAmount res, none⟩) ∧
    (∀ e : StoreErr,
      bulk_search (.error e) cfg names city limit = .error BulkErr.storageFail) := by
  constructor
  · intro k nm e hk hfail
    refine ⟨_, _, bulk_search_ok s cfg city (validInput_true hne hnb hlim), ?_, ?_⟩
    · rw [List.getElem?_map, hk]
      have hpn : perName s cfg city limit nm = ([], ⟨nm, 0, 0, some e⟩) := by
        unfold perName
        rw [hfail]
      simp [hpn]
    · intro j nm2 res hj hok
      rw [List.getElem?_map, hj]
      have hpn : perName s cfg city limit nm2 = (res, ⟨nm2, res.length, totalAmount res, none⟩) := by
        unfold perName
        rw [hok]
      simp [hpn]
  · intro e
    unfold bulk_search
    rw [validInput_true hne hnb hlim]
    rfl

/-- Witness for C5 at a concrete input: the failing session makes the one
name's summary record the storage error with an empty match list, and a
session-acquisition failure aborts the whole request. -/
theorem claim_C5_witness :
    (∃ rs ss,
      bulk_search (.ok failingSession) ⟨50, 80⟩ [strCodes "ann"] none 1 = .ok (rs, ss) ∧
      ss[0]? = some ⟨strCodes "ann", 0, 0, some StoreErr.storageUnavailable⟩ ∧
      ∀ (j : Nat) (nm2 : Str) (res : List MatchResult),
        [strCodes "ann"][j]? = some nm2 →
        resolve failingSession ⟨50, 80⟩ nm2 none 1 = .ok res →
        ss[j]? = some ⟨nm2, res.length, totalAmount res, none⟩) ∧
    bulk_search (.error StoreErr.storageUnavailable) ⟨50, 80⟩ [strCodes "ann"] none 1
      = .error BulkErr.storageFail :=
  ⟨(claim_C5_partial_failure_isolation failingSession ⟨50, 80⟩ [strCodes "ann"] none 1
      (by decide) (by decide) (by decide)).1 0 (strCodes "ann") .storageUnavailable rfl rfl,
   (claim_C5_partial_failure_isolation failingSession ⟨50, 80⟩ [strCodes "ann"] none 1
      (by decide) (by decide) (by decide)).2 .storageUnavailable⟩

/-! Lemmas about the ordering of results. -/

/-- Merged ranking of one name's result list: earlier tiers first, and
inside one tier descending amount with descending date as tie-break. -/
def mergedOrd (a b : MatchResult) : Prop :=
  tierIdx a.tier < tierIdx b.tier ∨ (a.tier = b.tier ∧ amtDateOrd a b)

theorem block_mem_tier {term : Str} {t : Tier} {limit : Nat} {acc : List MatchResult}
    {recs : List ContributionRecord} {m : MatchResult}
    (hm : m ∈ (List.insertionSort amtDateOrd (selfDedup (freshOf term t acc recs))).take
      (limit - acc.length)) : m.tier = t := by
  have h1 : m ∈ selfDedup (freshOf term t acc recs) :=
    (List.perm_insertionSort _ _).mem_iff.mp ((List.take_sublist _ _).subset hm)
  have h2 : m ∈ freshOf term t acc recs := selfDedup_subset h1
  rcases List.mem_filter.mp h2 with ⟨h3, _⟩
  rcases List.mem_map.mp h3 with ⟨r, _, rfl⟩
  rfl

theorem block_pairwise (term : Str) (t : Tier) (limit : Nat) (acc : List MatchResult)
    (recs : List ContributionRecord) :
    List.Pairwise amtDateOrd
      ((List.insertionSort amtDateOrd (selfDedup (freshOf term t acc recs))).take
        (limit - acc.length)) :=
  List.Pairwise.sublist (List.take_sublist _ _) (List.sorted_insertionSort amtDateOrd _)

theorem tierOrder_pairwise :
    List.Pairwise (fun a b => tierIdx a < tierIdx b) tierOrder := by
  unfold tierOrder
  simp [List.pairwise_cons, tierIdx]

theorem resolveAux_pairwise (s : Session) (cfg : FuzzyConfig) (term : Str)
    (city : Option Str) (limit : Nat) :
    ∀ (ts : List Tier) (acc : List MatchResult),
      List.Pairwise mergedOrd acc →
      (∀ m ∈ acc, ∀ t ∈ ts, tierIdx m.tier < tierIdx t) →
      List.Pairwise (fun a b => tierIdx a < tierIdx b) ts →
      ∀ res log, resolveAux s cfg term city limit acc ts = .ok (res, log) →
        List.Pairwise mergedOrd res := by
  intro ts
  induction ts with
  | nil =>
    intro acc hacc _ _ res log h
    rw [resolveAux] at h
    injection h with h
    injection h with h1 h2
    subst h1
    exact hacc
  | cons t ts ih =>
    intro acc hacc hcross hts res log h
    rw [resolveAux] at h
    split at h
    · injection h with h
      injection h with h1 h2
      subst h1
      exact hacc
    · split at h
      · cases hf : tierFetch s cfg term city t with
        | error e =>
          rw [hf] at h
          simp at h
        | ok recs =>
          rw [hf] at h
          dsimp only at h
          cases hr : resolveAux s cfg term city limit (tierAdd term t limit acc recs) ts with
          | error e =>
            rw [hr] at h
            simp at h
          | ok p =>
            obtain ⟨res0, log0⟩ := p
            rw [hr] at h
            injection h with h
            injection h with h1 h2
            subst h1
            have hacc2 : List.Pairwise mergedOrd (tierAdd term t limit acc recs) := by
              unfold tierAdd
              rw [List.pairwise_append]
              refine ⟨hacc, ?_, ?_⟩
              · refine List.Pairwise.imp_of_mem ?_ (block_pairwise term t limit acc recs)
                intro a b ha hb hab
                exact Or.inr ⟨by rw [block_mem_tier ha, block_mem_tier hb], hab⟩
              · intro a ha b hb
                refine Or.inl ?_
                rw [block_mem_tier hb]
                exact hcross a ha t (by simp)
            have hcross2 : ∀ m ∈ tierAdd term t limit acc recs, ∀ t2 ∈ ts,
                tierIdx m.tier < tierIdx t2 := by
              intro m hm t2 ht2
              unfold tierAdd at hm
              rcases List.mem_append.mp hm with hmem | hmem
              · exact hcross m hmem t2 (by simp [ht2])
              · rw [block_mem_tier hmem]
                exact List.rel_of_pairwise_cons hts ht2
            exact ih (tierAdd term t limit acc recs) hacc2 hcross2
              (List.Pairwise.of_cons hts) res0 log0 hr
      · refine ih acc hacc ?_ (List.Pairwise.of_cons hts) res log h
        intro m hm t2 ht2
        exact hcross m hm t2 (by simp [ht2])

theorem resolve_pairwise (s : Session) (cfg : FuzzyConfig) (term : Str) (city : Option Str)
    (limit : Nat) (res : List MatchResult) (h : resolve s cfg term city limit = .ok res) :
    List.Pairwise mergedOrd res := by
  unfold resolve at h
  cases heq : resolveWithLog s cfg term city limit with
  | error e =>
    rw [heq] at h
    simp [Except.map] at h
  | ok p =>
    obtain ⟨res0, log0⟩ := p
    rw [heq] at h
    simp only [Except.map] at h
    injection h with h
    subst h
    exact resolveAux_pairwise s cfg term city limit tierOrder [] List.Pairwise.nil
      (by intro m hm; simp at hm) tierOrder_pairwise res0 log0 heq

/-- C7: in every successful bulk search, the merged results are exactly the
concatenation of the per-name result lists in the input order of `names`,
and within one name's results the records are grouped by tier in cascade
order, with descending contribution amount and then descending transaction
date inside each tier and across the name's merged list. -/
theorem claim_C7_result_ordering (s : Session) (cfg : FuzzyConfig) (names : List Str)
    (city : Option Str) (limit : Nat) (hne : names ≠ [])
    (hnb : ∀ nm ∈ names, isBlank nm = false) (hlim : 0 < limit) :
    ∃ rs ss, bulk_search (.ok s) cfg names city limit = .ok (rs, ss) ∧
      rs = names.flatMap (fun nm => (perName s cfg city limit nm).1) ∧
      ∀ nm : Str, List.Pairwise mergedOrd (perName s cfg city limit nm).1 := by
  refine ⟨_, _, bulk_search_ok s cfg city (validInput_true hne hnb hlim), rfl, ?_⟩
  intro nm
  unfold perName
  cases hres : resolve s cfg nm city limit with
  | error e => exact List.Pairwise.nil
  | ok res => exact resolve_pairwise s cfg nm city limit res hres

/-- Witness for C7 at a concrete input against the fixture store. -/
theorem claim_C7_witness :
    ∃ rs ss,
      bulk_search (.ok fixtureSession) ⟨50, 80⟩ [strCodes "ann"] none 1 = .ok (rs, ss) ∧
      rs = [strCodes "ann"].flatMap (fun nm => (perName fixtureSession ⟨50, 80⟩ none 1 nm).1) ∧
      ∀ nm : Str, List.Pairwise mergedOrd (perName fixtureSession ⟨50, 80⟩ none 1 nm).1 :=
  claim_C7_result_ordering fixtureSession ⟨50, 80⟩ [strCodes "ann"] none 1
    (by decide) (by decide) (by decide)

/-- C8: every MatchResult of a successful bulk search flattens to a result
row exposing, under the stable field names, exactly the field set
{search term, matched name, city, state, amount, date, recipient
identifier, person key}; every field of the row is copied from the match
(nothing re-derived), and the CSV exporter serializes a row using only
those field names and rendered values. -/
theorem claim_C8_row_shape (s : Session) (cfg : FuzzyConfig) (names : List Str)
    (city : Option Str) (limit : Nat) (hne : names ≠ [])
    (hnb : ∀ nm ∈ names, isBlank nm = false) (hlim : 0 < limit) :
    ∃ rs ss, bulk_search (.ok s) cfg names city limit = .ok (rs, ss) ∧
      ∀ m ∈ rs,
        (rowFields (toRow m)).map Prod.fst = rowFieldNames ∧
        toRow m = ⟨m.searchTerm, m.record.name, m.record.city, m.record.state,
                   m.record.amount, m.record.date, m.record.cmteId, m.personKey⟩ ∧
        csvExport [toRow m]
          = [joinComma rowFieldNames,
             joinComma ((rowFields (toRow m)).map (fun p => csvQuote p.2))] := by
  refine ⟨_, _, bulk_search_ok s cfg city (validInput_true hne hnb hlim), ?_⟩
  intro m _
  exact ⟨rfl, rfl, rfl⟩

/-- Witness for C8 at a concrete input against the fixture store. -/
theorem claim_C8_witness :
    ∃ rs ss,
      bulk_search (.ok fixtureSession) ⟨50, 80⟩ [strCodes "john smith"] none 1
        = .ok (rs, ss) ∧
      ∀ m ∈ rs,
        (rowFields (toRow m)).map Prod.fst = rowFieldNames ∧
        toRow m = ⟨m.searchTerm, m.record.name, m.record.city, m.record.state,
                   m.record.amount, m.record.date, m.record.cmteId, m.personKey⟩ ∧
        csvExport [toRow m]
          = [joinComma rowFieldNames,
             joinComma ((rowFields (toRow m)).map (fun p => csvQuote p.2))] :=
  claim_C8_row_shape fixtureSession ⟨50, 80⟩ [strCodes "john smith"] none 1
    (by decide) (by decide) (by decide)

end Greenboard
